import Mathlib

/-!
Verification of the harassment-content analysis pipeline.

The development shallowly embeds the three processing stages of the
repository (the Normalizer `TextPreprocessor`, the Enricher `NLPProcessor`
and the Publisher `ElasticsearchIndexer`) over a model of a MongoDB
collection with a unique index on `url`.  A collection is a list of
documents; `update_one` with a `url` filter and `upsert=True` is modelled
as replace-first-match-or-append.  External collaborators (the `langdetect`
detector, the `TextBlob` sentiment model, the Elasticsearch bulk endpoint,
the NLTK stopword set and lemmatizer, and the wall clock) are passed as
explicit function parameters.
-/

namespace Pipeline

section KeyedStore

variable {α : Type} (key : α → String)

/-- `update_one({"url": key d}, {"$set": d}, upsert=True)` on a collection:
replace the first document whose key equals `key d`, else append. -/
def upsertBy (d : α) : List α → List α
  | [] => [d]
  | x :: xs => if key x = key d then d :: xs else x :: upsertBy d xs

/-- `find_one({"url": k})`: the first document whose key is `k`. -/
def findBy (k : String) : List α → Option α
  | [] => none
  | x :: xs => if key x = k then some x else findBy k xs

/-- The sequence of keys stored in a collection. -/
def keysBy : List α → List String
  | [] => []
  | x :: xs => key x :: keysBy xs

/-- One sequential pass of keyed upserts, in document order. -/
def saveAllBy (docs : List α) (m : List α) : List α :=
  docs.foldl (fun acc d => upsertBy key d acc) m

/-- The last document of `docs` carrying key `k`, if any: the value a pass
of upserts leaves at `k`. -/
def lastUpd (k : String) : List α → Option α
  | [] => none
  | d :: ds =>
    match lastUpd k ds with
    | some x => some x
    | none => if key d = k then some d else none

/-- Accumulate previously unseen keys at the end, in first-appearance
order. -/
def addAll (us : List String) (ks : List String) : List String :=
  ks.foldl (fun acc k => if k ∈ acc then acc else acc ++ [k]) us

@[simp] theorem keysBy_nil : keysBy key ([] : List α) = [] := rfl

@[simp] theorem keysBy_cons (x : α) (xs : List α) :
    keysBy key (x :: xs) = key x :: keysBy key xs := rfl

@[simp] theorem saveAllBy_nil (m : List α) : saveAllBy key [] m = m := rfl

@[simp] theorem saveAllBy_cons (d : α) (ds : List α) (m : List α) :
    saveAllBy key (d :: ds) m = saveAllBy key ds (upsertBy key d m) := rfl

@[simp] theorem addAll_nil (us : List String) : addAll us [] = us := rfl

@[simp] theorem addAll_cons (us : List String) (k : String) (ks : List String) :
    addAll us (k :: ks) = addAll (if k ∈ us then us else us ++ [k]) ks := rfl

theorem keysBy_upsertBy_mem (d : α) (m : List α) (h : key d ∈ keysBy key m) :
    keysBy key (upsertBy key d m) = keysBy key m := by
  induction m with
  | nil => simp at h
  | cons x xs ih =>
    by_cases hx : key x = key d
    · simp [upsertBy, hx]
    · rcases List.mem_cons.mp h with h1 | h1
      · exact absurd h1.symm hx
      · simp [upsertBy, hx, ih h1]

theorem keysBy_upsertBy_not_mem (d : α) (m : List α) (h : key d ∉ keysBy key m) :
    keysBy key (upsertBy key d m) = keysBy key m ++ [key d] := by
  induction m with
  | nil => simp [upsertBy]
  | cons x xs ih =>
    have hx : key x ≠ key d := fun hc => h (by simp [hc])
    have h2 : key d ∉ keysBy key xs := fun hc => h (by simp [hc])
    simp [upsertBy, hx, ih h2]

theorem findBy_upsertBy_self (d : α) (m : List α) :
    findBy key (key d) (upsertBy key d m) = some d := by
  induction m with
  | nil => simp [upsertBy, findBy]
  | cons x xs ih =>
    by_cases hx : key x = key d
    · simp [upsertBy, hx, findBy]
    · simp [upsertBy, hx, findBy, ih]

theorem findBy_upsertBy_ne (d : α) (m : List α) (k : String) (hk : k ≠ key d) :
    findBy key k (upsertBy key d m) = findBy key k m := by
  have hdk : key d ≠ k := fun h => hk h.symm
  induction m with
  | nil => simp [upsertBy, findBy, hdk]
  | cons x xs ih =>
    by_cases hx : key x = key d
    · have hxk : key x ≠ k := by rw [hx]; exact hdk
      simp [upsertBy, hx, findBy, hdk, hxk]
    · by_cases hxk : key x = k
      · simp [upsertBy, hx, findBy, hxk, hk]
      · simp [upsertBy, hx, findBy, hxk, ih]

theorem findBy_eq_none_iff (k : String) (m : List α) :
    findBy key k m = none ↔ k ∉ keysBy key m := by
  induction m with
  | nil => simp [findBy]
  | cons x xs ih =>
    by_cases hx : key x = k
    · simp [findBy, hx]
    · have hx2 : ¬k = key x := fun h => hx h.symm
      simp [findBy, hx, hx2, ih]

theorem length_upsertBy_of_mem (d : α) (m : List α)
    (h : key d ∈ keysBy key m) : (upsertBy key d m).length = m.length := by
  induction m with
  | nil => simp at h
  | cons x xs ih =>
    by_cases hx : key x = key d
    · simp [upsertBy, hx]
    · rcases List.mem_cons.mp h with h1 | h1
      · exact absurd h1.symm hx
      · simp [upsertBy, hx, ih h1]

theorem upsertBy_of_not_mem (d : α) (m : List α)
    (h : key d ∉ keysBy key m) : upsertBy key d m = m ++ [d] := by
  induction m with
  | nil => simp [upsertBy]
  | cons x xs ih =>
    have hx : key x ≠ key d := fun hc => h (by simp [hc])
    have h2 : key d ∉ keysBy key xs := fun hc => h (by simp [hc])
    simp [upsertBy, hx, ih h2]

theorem keysBy_saveAllBy (docs : List α) (m : List α) :
    keysBy key (saveAllBy key docs m) = addAll (keysBy key m) (keysBy key docs) := by
  induction docs generalizing m with
  | nil => simp
  | cons d ds ih =>
    rw [saveAllBy_cons, keysBy_cons, addAll_cons, ih]
    by_cases h : key d ∈ keysBy key m
    · rw [if_pos h, keysBy_upsertBy_mem key d m h]
    · rw [if_neg h, keysBy_upsertBy_not_mem key d m h]

theorem mem_addAll (us ks : List String) (k : String) :
    k ∈ addAll us ks ↔ k ∈ us ∨ k ∈ ks := by
  induction ks generalizing us with
  | nil => simp
  | cons a as ih =>
    rw [addAll_cons]
    by_cases ha : a ∈ us
    · rw [if_pos ha, ih]
      constructor
      · rintro (h | h)
        · exact Or.inl h
        · exact Or.inr (List.mem_cons_of_mem a h)
      · rintro (h | h)
        · exact Or.inl h
        · rcases List.mem_cons.mp h with h1 | h1
          · exact Or.inl (h1 ▸ ha)
          · exact Or.inr h1
    · rw [if_neg ha, ih]
      simp [List.mem_append, List.mem_cons]
      tauto

theorem addAll_eq_self (us ks : List String) (h : ∀ k ∈ ks, k ∈ us) :
    addAll us ks = us := by
  induction ks with
  | nil => rfl
  | cons a as ih =>
    have ha : a ∈ us := h a (by simp)
    rw [addAll_cons, if_pos ha]
    exact ih fun k hk => h k (List.mem_cons_of_mem a hk)

theorem nodup_addAll (us ks : List String) (h : us.Nodup) :
    (addAll us ks).Nodup := by
  induction ks generalizing us with
  | nil => exact h
  | cons a as ih =>
    rw [addAll_cons]
    by_cases ha : a ∈ us
    · rw [if_pos ha]; exact ih us h
    · rw [if_neg ha]
      refine ih (us ++ [a]) (List.nodup_append.mpr ⟨h, List.nodup_singleton a, ?_⟩)
      intro x hx hxa
      rw [List.mem_singleton] at hxa
      exact ha (hxa ▸ hx)

theorem findBy_saveAllBy (docs : List α) (m : List α) (k : String) :
    findBy key k (saveAllBy key docs m) =
      match lastUpd key k docs with
      | some d => some d
      | none => findBy key k m := by
  induction docs generalizing m with
  | nil => simp [lastUpd]
  | cons d ds ih =>
    rw [saveAllBy_cons, ih]
    cases h : lastUpd key k ds with
    | some x => simp [lastUpd, h]
    | none =>
      by_cases hk : key d = k
      · subst hk
        simp [lastUpd, h, findBy_upsertBy_self key d m]
      · simp [lastUpd, h, hk, findBy_upsertBy_ne key d m k fun h2 => hk h2.symm]

theorem lastUpd_eq_none_iff (k : String) (docs : List α) :
    lastUpd key k docs = none ↔ k ∉ keysBy key docs := by
  induction docs with
  | nil => simp [lastUpd]
  | cons d ds ih =>
    cases h : lastUpd key k ds with
    | some x =>
      have hk2 : k ∈ keysBy key ds := by
        by_contra hc
        rw [ih.mpr hc] at h
        exact Option.noConfusion h
      simp [lastUpd, h, List.mem_cons, hk2]
    | none =>
      by_cases hkd : key d = k
      · subst hkd
        simp [lastUpd, h]
      · have hkd2 : ¬k = key d := fun hc => hkd hc.symm
        simp [lastUpd, h, hkd, hkd2, ih.mp h]

/-- Two collections with the same key sequence, no duplicate keys, and the
same answer to every `find_one` query are identical. -/
theorem keyed_ext (m1 m2 : List α) (hk : keysBy key m1 = keysBy key m2)
    (hn : (keysBy key m1).Nodup) (hf : ∀ k, findBy key k m1 = findBy key k m2) :
    m1 = m2 := by
  induction m1 generalizing m2 with
  | nil =>
    cases m2 with
    | nil => rfl
    | cons y ys => simp at hk
  | cons x xs ih =>
    cases m2 with
    | nil => simp at hk
    | cons y ys =>
      rw [keysBy_cons, keysBy_cons] at hk
      have hk1 : key x = key y := (List.cons.injEq _ _ _ _ ▸ hk).1
      have hk2 : keysBy key xs = keysBy key ys := (List.cons.injEq _ _ _ _ ▸ hk).2
      have hn2 := List.nodup_cons.mp (keysBy_cons key x xs ▸ hn)
      have hxy : x = y := by
        have h1 := hf (key x)
        rw [show findBy key (key x) (x :: xs) = some x by simp [findBy],
          show findBy key (key x) (y :: ys) = some y by simp [findBy, hk1.symm]] at h1
        exact Option.some.injEq _ _ ▸ h1
      have hny : key x ∉ keysBy key ys := hk2 ▸ hn2.1
      rw [hxy]
      refine congrArg (List.cons y) (ih ys hk2 hn2.2 ?_)
      intro k
      by_cases hkx : key x = k
      · rw [← hkx]
        rw [(findBy_eq_none_iff key (key x) xs).mpr hn2.1]
        rw [(findBy_eq_none_iff key (key x) ys).mpr hny]
      · have h2 := hf k
        have hky : key y ≠ k := hk1 ▸ hkx
        rw [show findBy key k (x :: xs) = findBy key k xs by simp [findBy, hkx],
          show findBy key k (y :: ys) = findBy key k ys by simp [findBy, hky]] at h2
        exact h2

/-- Overriding pass: a pass of upserts for `docs2` erases everything an
earlier pass for key-aligned `docs1` wrote into a duplicate-free
collection. -/
theorem saveAllBy_override (docs1 docs2 : List α) (m : List α)
    (hk : keysBy key docs1 = keysBy key docs2) (hm : (keysBy key m).Nodup) :
    saveAllBy key docs2 (saveAllBy key docs1 m) = saveAllBy key docs2 m := by
  apply keyed_ext key
  · rw [keysBy_saveAllBy, keysBy_saveAllBy, keysBy_saveAllBy, hk]
    apply addAll_eq_self
    intro k hkk
    rw [mem_addAll]
    exact Or.inr hkk
  · rw [keysBy_saveAllBy, keysBy_saveAllBy]
    exact nodup_addAll _ _ (nodup_addAll _ _ hm)
  · intro k
    rw [findBy_saveAllBy, findBy_saveAllBy, findBy_saveAllBy]
    cases h : lastUpd key k docs2 with
    | some d => simp
    | none =>
      have h1 : lastUpd key k docs1 = none := by
        rw [lastUpd_eq_none_iff] at h ⊢
        rw [hk]
        exact h
      simp [h1]

/-- A second identical pass of upserts is a no-op on a duplicate-free
collection. -/
theorem saveAllBy_idem (docs : List α) (m : List α)
    (hm : (keysBy key m).Nodup) :
    saveAllBy key docs (saveAllBy key docs m) = saveAllBy key docs m :=
  saveAllBy_override key docs docs m rfl hm

/-- Keyed upserts never create a duplicate key. -/
theorem nodup_keysBy_saveAllBy (docs : List α) (m : List α)
    (hm : (keysBy key m).Nodup) :
    (keysBy key (saveAllBy key docs m)).Nodup := by
  rw [keysBy_saveAllBy]
  exact nodup_addAll _ _ hm

end KeyedStore

/-! ### Normalizer: `src/main/processeing/preprocessing.py`, class `TextPreprocessor` -/

namespace TextPreprocessor

/-- Python regex `\s` / `str.split()` whitespace over the ASCII range. -/
def isSpacePy (c : Char) : Bool :=
  c = ' ' || c = '\t' || c = '\n' || c = '\r' || c = '\x0b' || c = '\x0c'

/-- The remainder after the first `'>'` on the current line: the lazy body
of a `<.*?>` match (`.` does not cross a newline). -/
def splitAtGt : List Char → Option (List Char)
  | [] => none
  | c :: rest => if c = '>' then some rest else if c = '\n' then none else splitAtGt rest

/-- `re.sub(r'<.*?>', '', text)`: leftmost non-overlapping lazy matches,
each spanning from a `'<'` to the next `'>'` on the same line.  `fuel`
bounds the recursion (any `fuel` at least the input length gives the full
scan; the wrapper passes the input length). -/
def removeHtmlF : Nat → List Char → List Char
  | 0, l => l
  | _ + 1, [] => []
  | fuel + 1, c :: rest =>
    if c = '<' then
      match splitAtGt rest with
      | some rem => removeHtmlF fuel rem
      | none => c :: removeHtmlF fuel rest
    else c :: removeHtmlF fuel rest

/-- The remainder of `l` after the literal character sequence `p`, when `l`
starts with `p`. -/
def dropLead : List Char → List Char → Option (List Char)
  | [], l => some l
  | _ :: _, [] => none
  | a :: ps, b :: ls => if a = b then dropLead ps ls else none

/-- One attempted match of `http\S+|www\S+|https\S+` at the head of `l`:
alternatives tried left to right, `\S+` greedy and non-empty.  (The
`https\S+` branch is subsumed by `http\S+`.)  Returns the remainder after
the match. -/
def urlMatch (l : List Char) : Option (List Char) :=
  match dropLead ['h', 't', 't', 'p'] l with
  | some r =>
    match r with
    | [] => none
    | c :: _ => if isSpacePy c then none else some (r.dropWhile (fun x => !isSpacePy x))
  | none =>
    match dropLead ['w', 'w', 'w'] l with
    | some r =>
      match r with
      | [] => none
      | c :: _ => if isSpacePy c then none else some (r.dropWhile (fun x => !isSpacePy x))
    | none => none

/-- `re.sub(r'http\S+|www\S+|https\S+', '', text)`: scan left to right,
removing each greedy match, restarting after the removed span.  `fuel`
bounds the recursion as in `removeHtmlF`. -/
def removeUrlsF : Nat → List Char → List Char
  | 0, l => l
  | _ + 1, [] => []
  | fuel + 1, c :: rest =>
    match urlMatch (c :: rest) with
    | some rem => removeUrlsF fuel rem
    | none => c :: removeUrlsF fuel rest

/-- `re.sub(r'[^a-zA-Z\s]', '', text)`: keep only ASCII letters and
whitespace. -/
def removeSpecialC (l : List Char) : List Char :=
  l.filter (fun c => ('a' ≤ c && c ≤ 'z') || ('A' ≤ c && c ≤ 'Z') || isSpacePy c)

/-- `str.split()`: split on whitespace runs, dropping empty pieces.  The
accumulator holds the current word reversed. -/
def wordsAux : List Char → List Char → List (List Char)
  | [], acc => if acc = [] then [] else [acc.reverse]
  | c :: rest, acc =>
    if isSpacePy c then
      if acc = [] then wordsAux rest [] else acc.reverse :: wordsAux rest []
    else wordsAux rest (c :: acc)

/-- `text.lower()` (ASCII fragment of Python `str.lower`; every character
reaching the tokenizer is ASCII). -/
def pyLower (s : String) : String := String.mk (s.data.map Char.toLower)

/-- `TextPreprocessor.remove_html`. -/
def remove_html (s : String) : String := String.mk (removeHtmlF s.data.length s.data)

/-- `TextPreprocessor.remove_urls`. -/
def remove_urls (s : String) : String := String.mk (removeUrlsF s.data.length s.data)

/-- `TextPreprocessor.remove_special_chars`. -/
def remove_special_chars (s : String) : String := String.mk (removeSpecialC s.data)

/-- `text.split()`. -/
def pySplit (s : String) : List String := (wordsAux s.data []).map String.mk

/-- `TextPreprocessor.preprocess_text`.  The NLTK stopword set (`stop`) and
the WordNet lemmatizer (`lem`) are external data passed as parameters. -/
def preprocess_text (stop : List String) (lem : String → String) (text : String) : String :=
  if text = "" then ""
  else
    let t1 := pyLower text
    let t2 := remove_html t1
    let t3 := remove_urls t2
    let t4 := remove_special_chars t3
    let tokens := pySplit t4
    let clean_tokens :=
      (tokens.filter (fun tok => !(stop.contains tok) && decide (2 < tok.length))).map lem
    String.intercalate " " clean_tokens

/-- A raw post as stored in the `posts` collection: fields may be absent
(`doc.get` defaults are applied by the Normalizer). -/
structure RawDoc where
  title : Option String
  content : Option String
  author : Option String
  date : Option Nat
  url : Option String
deriving DecidableEq

/-- A preprocessed post as written by the Normalizer. -/
structure PDoc where
  title : String
  content : String
  author : String
  date : Option Nat
  url : String
deriving DecidableEq

/-- The per-document body of `TextPreprocessor.process_documents`. -/
def processDoc (stop : List String) (lem : String → String) (r : RawDoc) : PDoc :=
  { title := preprocess_text stop lem (r.title.getD "")
    content := preprocess_text stop lem (r.content.getD "")
    author := r.author.getD "unknown"
    date := r.date
    url := r.url.getD "" }

/-- `TextPreprocessor.process_documents`: extract and preprocess every raw
document, in collection order. -/
def process_documents (stop : List String) (lem : String → String)
    (raws : List RawDoc) : List PDoc :=
  raws.map (processDoc stop lem)

/-- `TextPreprocessor.save_to_mongodb`: upsert each document into the
preprocessed collection keyed by `url`; count inserts (an `upserted_id` is
returned) and updates separately; a store fault on one document
(`failW d = true`) is caught, logged and skipped.  Returns the collection
with the two counters. -/
def save_to_mongodb (failW : PDoc → Bool) :
    List PDoc → List PDoc → Nat → Nat → List PDoc × Nat × Nat
  | [], coll, ins, upd => (coll, ins, upd)
  | d :: ds, coll, ins, upd =>
    if failW d then save_to_mongodb failW ds coll ins upd
    else
      let isNew := (findBy PDoc.url d.url coll).isNone
      let coll2 := upsertBy PDoc.url d coll
      if isNew then save_to_mongodb failW ds coll2 (ins + 1) upd
      else save_to_mongodb failW ds coll2 ins (upd + 1)

/-- A full Normalizer run with a healthy store: preprocess the raw
collection, then save into the preprocessed collection. -/
def normalizerRun (stop : List String) (lem : String → String)
    (raws : List RawDoc) (coll : List PDoc) : List PDoc :=
  (save_to_mongodb (fun _ => false) (process_documents stop lem raws) coll 0 0).1

/-- The collection left by `save_to_mongodb` is one pass of keyed upserts
of exactly the documents whose write did not fault. -/
theorem save_to_mongodb_state (failW : PDoc → Bool) (docs coll : List PDoc) (ins upd : Nat) :
    (save_to_mongodb failW docs coll ins upd).1 =
      saveAllBy PDoc.url (docs.filter fun d => !failW d) coll := by
  induction docs generalizing coll ins upd with
  | nil => simp [save_to_mongodb]
  | cons d ds ih =>
    rw [save_to_mongodb]
    cases hf : failW d with
    | true => simp [hf, ih, List.filter_cons]
    | false =>
      by_cases hnew : (findBy PDoc.url d.url coll).isNone
      · simp [hf, hnew, ih, List.filter_cons]
      · simp [hf, hnew, ih, List.filter_cons]

/-- `save_to_mongodb` counts one insert or one update for every document
whose write did not fault, and nothing for a faulting one. -/
theorem save_to_mongodb_counts (failW : PDoc → Bool) (docs coll : List PDoc) (ins upd : Nat) :
    (save_to_mongodb failW docs coll ins upd).2.1 + (save_to_mongodb failW docs coll ins upd).2.2 =
      ins + upd + (docs.filter fun d => !failW d).length := by
  induction docs generalizing coll ins upd with
  | nil => simp [save_to_mongodb]
  | cons d ds ih =>
    rw [save_to_mongodb]
    cases hf : failW d with
    | true => simp [hf, ih, List.filter_cons]
    | false =>
      by_cases hnew : (findBy PDoc.url d.url coll).isNone
      · simp [hf, hnew, ih, List.filter_cons]
        omega
      · simp [hf, hnew, ih, List.filter_cons]
        omega

end TextPreprocessor

/-! ### Enricher: `src/nlp_pipeline.py`, class `NLPProcessor` -/

namespace NLPProcessor

open TextPreprocessor (PDoc)

/-- `NLPProcessor.detect_language`.  The `langdetect` collaborator `det` is
a parameter; its `error` value models a raised `LangDetectException`. -/
def detect_language (det : String → Except Unit String) (text : String) : String :=
  if text = "" ∨ text.length < 3 then "unknown"
  else
    match det (text.take 1000) with
    | Except.ok lang => lang
    | Except.error _ => "unknown"

/-- The sentiment bucket derived from a polarity score (lines 51-56 of
`nlp_pipeline.py`). -/
def thresholdLabel (p : ℚ) : String :=
  if p > mkRat 1 10 then "positive" else if p < -mkRat 1 10 then "negative" else "neutral"

/-- `NLPProcessor.analyze_sentiment`.  The `TextBlob` polarity model `sm`
is a parameter; its `error` value models an exception it raises, which
this function does not catch.  The `language` argument is accepted and
ignored, as in the source. -/
def analyze_sentiment (sm : String → Except Unit ℚ) (text : String) (language : String) :
    Except Unit (ℚ × String) :=
  if text = "" then Except.ok (0, "neutral")
  else
    match sm text with
    | Except.error e => Except.error e
    | Except.ok polarity => Except.ok (polarity, thresholdLabel polarity)

/-- An enriched post as written by the Enricher. -/
structure EDoc where
  title : String
  content : String
  author : String
  date : Option Nat
  url : String
  language : String
  sentiment : String
  polarity : ℚ
  enriched_at : Nat
deriving DecidableEq

/-- The enriched document built for one preprocessed document when the
sentiment model returns `pol`/`sent` (lines 80-90 of `nlp_pipeline.py`);
`now` is the wall clock read by `datetime.now()`. -/
def enrichedDoc (det : String → Except Unit String) (now : Nat) (d : PDoc)
    (pol : ℚ) (sent : String) : EDoc :=
  { title := d.title
    content := d.content
    author := d.author
    date := d.date
    url := d.url
    language := detect_language det d.content
    sentiment := sent
    polarity := pol
    enriched_at := now }

/-- `NLPProcessor.process_documents`: enrich every preprocessed document
and upsert it into the enriched collection keyed by `url`.  A store fault
on one document (`failW url = true`) is caught and skipped without
incrementing `processed_count`; an exception from the sentiment model is
not caught, so it aborts the loop (final component `false`).  Returns the
enriched collection, `processed_count`, and whether the run completed. -/
def process_documents (det : String → Except Unit String) (sm : String → Except Unit ℚ)
    (failW : String → Bool) (now : Nat) :
    List PDoc → List EDoc → Nat → List EDoc × Nat × Bool
  | [], enr, cnt => (enr, cnt, true)
  | d :: ds, enr, cnt =>
    let language := detect_language det d.content
    match analyze_sentiment sm d.content language with
    | Except.error _ => (enr, cnt, false)
    | Except.ok (pol, sent) =>
      if failW d.url then process_documents det sm failW now ds enr cnt
      else
        process_documents det sm failW now ds
          (upsertBy EDoc.url (enrichedDoc det now d pol sent) enr) (cnt + 1)

/-- A total sentiment model (one that never raises). -/
def okModel (f : String → ℚ) : String → Except Unit ℚ := fun s => Except.ok (f s)

/-- The value `analyze_sentiment` returns under a total model. -/
def sentimentPair (f : String → ℚ) (text : String) : ℚ × String :=
  if text = "" then (0, "neutral") else (f text, thresholdLabel (f text))

theorem analyze_sentiment_okModel (f : String → ℚ) (text language : String) :
    analyze_sentiment (okModel f) text language = Except.ok (sentimentPair f text) := by
  by_cases h : text = ""
  · simp [analyze_sentiment, sentimentPair, h]
  · simp [analyze_sentiment, sentimentPair, h, okModel]

/-- The enriched collection after a full Enricher run with a healthy store
and a sentiment model that never raises. -/
def enricherRun (det : String → Except Unit String) (f : String → ℚ) (now : Nat)
    (pre : List PDoc) (enr : List EDoc) : List EDoc :=
  (process_documents det (okModel f) (fun _ => false) now pre enr 0).1

/-- Under a total sentiment model and a healthy store, the Enricher loop is
one pass of keyed upserts of the per-document enrichment, and it completes,
counting every document. -/
theorem process_documents_okModel (det : String → Except Unit String) (f : String → ℚ)
    (now : Nat) (pre : List PDoc) (enr : List EDoc) (cnt : Nat) :
    process_documents det (okModel f) (fun _ => false) now pre enr cnt =
      (saveAllBy EDoc.url
        (pre.map fun d => enrichedDoc det now d (sentimentPair f d.content).1
          (sentimentPair f d.content).2) enr,
       cnt + pre.length, true) := by
  induction pre generalizing enr cnt with
  | nil => simp [process_documents]
  | cons d ds ih =>
    rw [process_documents]
    rw [analyze_sentiment_okModel]
    simp only [ih, List.map_cons, saveAllBy_cons, List.length_cons]
    rw [show cnt + 1 + ds.length = cnt + (ds.length + 1) by omega]
    simp

end NLPProcessor

/-! ### Publisher: `src/migration/es_ingest.py`, class `ElasticsearchIndexer` -/

namespace ElasticsearchIndexer

/-- A document read back from the enriched collection, as the Publisher
sees it: any field may be absent (`doc.get` defaults are applied by
`transform_document`). -/
structure MDoc where
  title : Option String
  content : Option String
  author : Option String
  date : Option Nat
  url : Option String
  language : Option String
  sentiment : Option String
  polarity : Option ℚ
deriving DecidableEq

/-- A document of the Elasticsearch bulk payload. -/
structure ESDoc where
  titre : String
  contenu : String
  auteur : String
  date : Nat
  url : String
  langue : String
  sentiment : String
  score : ℚ
  indexed_at : Nat
deriving DecidableEq

/-- `ElasticsearchIndexer.transform_document`; `now` is the wall clock read
by `datetime.now()`. -/
def transform_document (now : Nat) (doc : MDoc) : ESDoc :=
  { titre := doc.title.getD ""
    contenu := doc.content.getD ""
    auteur := doc.author.getD "unknown"
    date := doc.date.getD now
    url := doc.url.getD ""
    langue := doc.language.getD "unknown"
    sentiment := doc.sentiment.getD "neutral"
    score := doc.polarity.getD 0
    indexed_at := now }

/-- `ElasticsearchIndexer.index_documents` together with `_bulk_index`:
transform each document, buffer actions, and submit a bulk call whenever
the buffer reaches 500, plus one final call for a nonempty remainder.
`_bulk_index` catches every exception of the bulk call, so a failing batch
(`bulkFail batch = true`, recorded as a `false` flag) never stops the
loop.  Returns the submitted batches in order with their success flags. -/
def index_documents (bulkFail : List ESDoc → Bool) (now : Nat) :
    List MDoc → List ESDoc → List (List ESDoc × Bool)
  | [], actions => if actions = [] then [] else [(actions, !bulkFail actions)]
  | d :: ds, actions =>
    let acts2 := actions ++ [transform_document now d]
    if 500 ≤ acts2.length then
      (acts2, !bulkFail acts2) :: index_documents bulkFail now ds []
    else index_documents bulkFail now ds acts2

/-- Every transformed document reaches the bulk endpoint exactly once, in
order: the concatenation of the submitted batches is the projected
collection. -/
theorem index_documents_flatten (bf : List ESDoc → Bool) (now : Nat) (ds : List MDoc)
    (acc : List ESDoc) :
    ((index_documents bf now ds acc).map Prod.fst).flatten =
      acc ++ ds.map (transform_document now) := by
  induction ds generalizing acc with
  | nil =>
    by_cases h : acc = []
    · simp [index_documents, h]
    · simp [index_documents, h]
  | cons d rest ih =>
    rw [index_documents]
    by_cases h5 : 500 ≤ (acc ++ [transform_document now d]).length
    · simp only [if_pos h5, List.map_cons, List.flatten_cons, ih]
      simp
    · simp only [if_neg h5, ih]
      simp

/-- Batch shape: every submitted batch is nonempty and holds at most 500
actions, and every batch before the last holds exactly 500. -/
theorem index_documents_batch_sizes (bf : List ESDoc → Bool) (now : Nat) (ds : List MDoc)
    (acc : List ESDoc) (hacc : acc.length < 500) :
    (∀ b ∈ (index_documents bf now ds acc).map Prod.fst, b ≠ [] ∧ b.length ≤ 500)
    ∧ ∀ b ∈ ((index_documents bf now ds acc).map Prod.fst).dropLast, b.length = 500 := by
  induction ds generalizing acc with
  | nil =>
    by_cases h : acc = []
    · simp [index_documents, h]
    · refine ⟨?_, ?_⟩
      · intro b hb
        simp [index_documents, h] at hb
        exact ⟨hb ▸ h, hb ▸ Nat.le_of_lt hacc⟩
      · intro b hb
        simp [index_documents, h, List.dropLast] at hb
  | cons d rest ih =>
    rw [index_documents]
    by_cases h5 : 500 ≤ (acc ++ [transform_document now d]).length
    · have hlen : (acc ++ [transform_document now d]).length = 500 := by
        simp at h5 ⊢
        omega
      rw [if_pos h5]
      have ihr := ih ([] : List ESDoc) (by simp)
      refine ⟨?_, ?_⟩
      · intro b hb
        simp only [List.map_cons, List.mem_cons] at hb
        rcases hb with hb | hb
        · subst hb
          refine ⟨?_, le_of_eq hlen⟩
          intro hc
          rw [hc] at hlen
          simp at hlen
        · exact ihr.1 b hb
      · intro b hb
        simp only [List.map_cons] at hb
        cases htl : (index_documents bf now rest ([] : List ESDoc)).map Prod.fst with
        | nil => rw [htl, List.dropLast_single] at hb; simp at hb
        | cons x xs =>
          rw [htl] at hb
          rw [List.dropLast_cons₂] at hb
          rcases List.mem_cons.mp hb with hb | hb
          · exact hb ▸ hlen
          · rw [htl] at ihr
            exact ihr.2 b hb
    · rw [if_neg h5]
      exact ih _ (by simp at h5 ⊢; omega)

/-- The sequence of submitted batches does not depend on which bulk calls
fail: a failing batch never prevents or alters a later submission. -/
theorem index_documents_fault_oblivious (bf bf2 : List ESDoc → Bool) (now : Nat)
    (ds : List MDoc) (acc : List ESDoc) :
    (index_documents bf now ds acc).map Prod.fst =
      (index_documents bf2 now ds acc).map Prod.fst := by
  induction ds generalizing acc with
  | nil =>
    by_cases h : acc = []
    · simp [index_documents, h]
    · simp [index_documents, h]
  | cons d rest ih =>
    rw [index_documents, index_documents]
    by_cases h5 : 500 ≤ (acc ++ [transform_document now d]).length
    · simp only [if_pos h5, List.map_cons, ih]
    · simp only [if_neg h5, ih]

end ElasticsearchIndexer

/-! ## Claims -/

open TextPreprocessor NLPProcessor ElasticsearchIndexer

/-- Keys of the mapped enrichment output are the source urls, whatever the
clock value. -/
theorem keysBy_enrichment (det : String → Except Unit String) (f : String → ℚ) (now : Nat)
    (pre : List PDoc) :
    keysBy EDoc.url
      (pre.map fun d => enrichedDoc det now d (sentimentPair f d.content).1
        (sentimentPair f d.content).2) = pre.map PDoc.url := by
  induction pre with
  | nil => rfl
  | cons d ds ih =>
    simp only [List.map_cons, keysBy_cons, ih]
    simp [enrichedDoc]

/-- Concrete fixtures used by witnesses and counterexamples. -/
def exRaw : RawDoc :=
  { title := some "Test HTML", content := some "Bad stuff", author := none,
    date := none, url := some "u9" }

def exP1 : PDoc :=
  { title := "alpha", content := "first post body", author := "ann", date := none, url := "u1" }

def exP2 : PDoc :=
  { title := "beta", content := "second post body", author := "ben", date := none, url := "u2" }

def exP3 : PDoc :=
  { title := "gamma", content := "third post body", author := "cat", date := none, url := "u3" }

def exE1 : EDoc :=
  { title := "alpha", content := "first post body", author := "ann", date := none, url := "u1",
    language := "en", sentiment := "neutral", polarity := 0, enriched_at := 7 }

def exE3 : EDoc :=
  { title := "gamma", content := "third post body", author := "cat", date := none, url := "u3",
    language := "en", sentiment := "neutral", polarity := 0, enriched_at := 7 }

def enDet : String → Except Unit String := fun _ => Except.ok "en"

def cexBadSm : String → Except Unit ℚ := fun _ => Except.error ()

def exM : MDoc :=
  { title := none, content := none, author := none, date := none, url := none,
    language := none, sentiment := none, polarity := none }

def exMFull : MDoc :=
  { title := some "t", content := some "c", author := some "a", date := some 11,
    url := some "u", language := some "fr", sentiment := some "positive",
    polarity := some (mkRat 37 100) }

/-- C1: re-running a stage on unchanged inputs converges to the same final
state.  The Normalizer run (`process_documents` then `save_to_mongodb`)
applied twice to the same raw collection equals one application, and the
resulting preprocessed collection has at most one document per url; the
Enricher run applied twice (at clock values `now1` then `now2`) leaves the
enriched collection exactly as a single run (at `now2`) leaves it, again
with at most one document per url — because every write is a keyed upsert
on `url`, never an append. -/
theorem C1_rerun_idempotent (stop : List String) (lem : String → String)
    (raws : List RawDoc) (pre : List PDoc) (det : String → Except Unit String)
    (f : String → ℚ) (now1 now2 : Nat) (enr : List EDoc)
    (hpre : (keysBy PDoc.url pre).Nodup) (henr : (keysBy EDoc.url enr).Nodup) :
    (normalizerRun stop lem raws (normalizerRun stop lem raws pre) =
        normalizerRun stop lem raws pre
      ∧ (keysBy PDoc.url (normalizerRun stop lem raws pre)).Nodup)
    ∧ (enricherRun det f now2 pre (enricherRun det f now1 pre enr) =
        enricherRun det f now2 pre enr
      ∧ (keysBy EDoc.url (enricherRun det f now1 pre enr)).Nodup) := by
  have hN : ∀ P : List PDoc, normalizerRun stop lem raws P =
      saveAllBy PDoc.url (TextPreprocessor.process_documents stop lem raws) P := by
    intro P
    rw [normalizerRun, save_to_mongodb_state]
    simp
  have hE : ∀ (now : Nat) (E : List EDoc), enricherRun det f now pre E =
      saveAllBy EDoc.url
        (pre.map fun d => enrichedDoc det now d (sentimentPair f d.content).1
          (sentimentPair f d.content).2) E := by
    intro now E
    rw [enricherRun, process_documents_okModel]
  refine ⟨⟨?_, ?_⟩, ?_, ?_⟩
  · simp only [hN]
    exact saveAllBy_idem PDoc.url _ pre hpre
  · simp only [hN]
    exact nodup_keysBy_saveAllBy PDoc.url _ pre hpre
  · simp only [hE]
    exact saveAllBy_override EDoc.url _ _ enr
      (by rw [keysBy_enrichment, keysBy_enrichment]) henr
  · simp only [hE]
    exact nodup_keysBy_saveAllBy EDoc.url _ enr henr

theorem C1_rerun_idempotent_witness :
    (normalizerRun [] id [exRaw] (normalizerRun [] id [exRaw] [exP1]) =
        normalizerRun [] id [exRaw] [exP1]
      ∧ (keysBy PDoc.url (normalizerRun [] id [exRaw] [exP1])).Nodup)
    ∧ (enricherRun enDet (fun _ => 0) 1 [exP1] (enricherRun enDet (fun _ => 0) 0 [exP1] []) =
        enricherRun enDet (fun _ => 0) 1 [exP1] []
      ∧ (keysBy EDoc.url (enricherRun enDet (fun _ => 0) 0 [exP1] [])).Nodup) :=
  C1_rerun_idempotent [] id [exRaw] [exP1] enDet (fun _ => 0) 0 1 []
    (by decide) (by decide)

/-- C2: the Normalizer transform on the spec's example.  With stopwords
`am`, `a`, `the` and the identity lemmatizer,
`preprocess_text("<p>Hello, world! I am running to the store.</p>")` is
`"hello world running store"`; with the lemma rule `running → run` it is
`"hello world run store"`. -/
theorem C2_transform_example :
    preprocess_text ["am", "a", "the"] id
        "<p>Hello, world! I am running to the store.</p>" = "hello world running store"
    ∧ preprocess_text ["am", "a", "the"] (fun s => if s = "running" then "run" else s)
        "<p>Hello, world! I am running to the store.</p>" = "hello world run store" :=
  ⟨by decide, by decide⟩

/-- C5: upsert semantics of `save_to_mongodb`.  A document with an absent
url is appended and counted as inserted; re-submitting an existing url
replaces the stored document in place (other urls untouched), counts as
updated, and leaves the collection size unchanged. -/
theorem C5_upsert_semantics (coll : List PDoc) (d : PDoc) (ins upd : Nat) :
    (findBy PDoc.url d.url coll = none →
      save_to_mongodb (fun _ => false) [d] coll ins upd = (coll ++ [d], ins + 1, upd))
    ∧ ∀ x, findBy PDoc.url d.url coll = some x →
        save_to_mongodb (fun _ => false) [d] coll ins upd =
          (upsertBy PDoc.url d coll, ins, upd + 1)
        ∧ (upsertBy PDoc.url d coll).length = coll.length
        ∧ findBy PDoc.url d.url (upsertBy PDoc.url d coll) = some d
        ∧ ∀ k, k ≠ d.url →
            findBy PDoc.url k (upsertBy PDoc.url d coll) = findBy PDoc.url k coll := by
  constructor
  · intro h
    have hnm : d.url ∉ keysBy PDoc.url coll := (findBy_eq_none_iff PDoc.url d.url coll).mp h
    simp [save_to_mongodb, h, upsertBy_of_not_mem PDoc.url d coll hnm]
  · intro x hx
    have hmem : d.url ∈ keysBy PDoc.url coll := by
      by_contra hc
      rw [(findBy_eq_none_iff PDoc.url d.url coll).mpr hc] at hx
      exact Option.noConfusion hx
    refine ⟨?_, length_upsertBy_of_mem PDoc.url d coll hmem,
      findBy_upsertBy_self PDoc.url d coll,
      fun k hk => findBy_upsertBy_ne PDoc.url d coll k hk⟩
    simp [save_to_mongodb, hx]

theorem C5_upsert_semantics_witness :
    (save_to_mongodb (fun _ => false) [exP1] [] 0 0 = ([exP1], 1, 0))
    ∧ save_to_mongodb (fun _ => false)
        [{ exP1 with content := "edited body" }] [exP1] 0 0 =
        ([{ exP1 with content := "edited body" }], 0, 1) := by
  constructor
  · have h := (C5_upsert_semantics [] exP1 0 0).1 rfl
    simpa using h
  · have h := ((C5_upsert_semantics [exP1] { exP1 with content := "edited body" } 0 0).2
      exP1 (by decide)).1
    simpa [upsertBy, exP1] using h

/-- C6: partial-failure continuation.  For every input list, the writes
that fault are skipped while every remaining document is still written
(the final collection is the upsert pass over exactly the non-faulting
documents) and the success counters total the non-faulting documents.  On
the concrete 3-document scenario where only the write of document 2
faults, the Normalizer save reports 2 successes and has written documents
1 and 3, and the Enricher loop likewise reports 2 processed documents and
completes. -/
theorem C6_partial_failure_continuation (failW : PDoc → Bool) (docs coll : List PDoc) :
    ((save_to_mongodb failW docs coll 0 0).2.1 + (save_to_mongodb failW docs coll 0 0).2.2 =
        (docs.filter fun d => !failW d).length
      ∧ (save_to_mongodb failW docs coll 0 0).1 =
          saveAllBy PDoc.url (docs.filter fun d => !failW d) coll)
    ∧ save_to_mongodb (fun d => d.url == "u2") [exP1, exP2, exP3] [] 0 0 = ([exP1, exP3], 2, 0)
    ∧ NLPProcessor.process_documents enDet (okModel fun _ => 0) (fun u => u == "u2") 7
        [exP1, exP2, exP3] [] 0 = ([exE1, exE3], 2, true) := by
  refine ⟨⟨?_, save_to_mongodb_state failW docs coll 0 0⟩, by decide, by decide⟩
  simpa using save_to_mongodb_counts failW docs coll 0 0

/-- C9: `analyze_sentiment` ignores its `language` argument: any two
language values give identical results. -/
theorem C9_language_not_interfering (sm : String → Except Unit ℚ) (text l1 l2 : String) :
    analyze_sentiment sm text l1 = analyze_sentiment sm text l2 := rfl

/-- C10: `transform_document` is total on partially-populated documents,
with the defaults titre `""`, contenu `""`, auteur `"unknown"`, langue
`"unknown"`, sentiment `"neutral"`, url `""`, score `0`; a missing date
becomes the current time, and a present polarity is copied into `score`
exactly. -/
theorem C10_transform_defaults (now : Nat) (doc : MDoc) :
    (doc.title = none → (transform_document now doc).titre = "")
    ∧ (doc.content = none → (transform_document now doc).contenu = "")
    ∧ (doc.author = none → (transform_document now doc).auteur = "unknown")
    ∧ (doc.language = none → (transform_document now doc).langue = "unknown")
    ∧ (doc.sentiment = none → (transform_document now doc).sentiment = "neutral")
    ∧ (doc.url = none → (transform_document now doc).url = "")
    ∧ (doc.polarity = none → (transform_document now doc).score = 0)
    ∧ (doc.date = none → (transform_document now doc).date = now)
    ∧ ∀ p, doc.polarity = some p → (transform_document now doc).score = p :=
  ⟨fun h => by simp [transform_document, h], fun h => by simp [transform_document, h],
   fun h => by simp [transform_document, h], fun h => by simp [transform_document, h],
   fun h => by simp [transform_document, h], fun h => by simp [transform_document, h],
   fun h => by simp [transform_document, h], fun h => by simp [transform_document, h],
   fun p h => by simp [transform_document, h]⟩

/-- C3: the sentiment label is derived from the returned polarity by the
fixed thresholds — positive iff polarity > 1/10, negative iff
polarity < -1/10, neutral otherwise (both boundaries inclusive on the
neutral side, 0.1000001 positive) — and empty content yields polarity 0
with label neutral. -/
theorem C3_sentiment_thresholds (sm : String → Except Unit ℚ) (t l : String) (p : ℚ)
    (s : String) :
    analyze_sentiment sm "" l = Except.ok (0, "neutral")
    ∧ (analyze_sentiment sm t l = Except.ok (p, s) →
        ((s = "positive" ↔ mkRat 1 10 < p)
          ∧ (s = "negative" ↔ p < -mkRat 1 10)
          ∧ (s = "neutral" ↔ ¬mkRat 1 10 < p ∧ ¬p < -mkRat 1 10)))
    ∧ analyze_sentiment (okModel fun _ => mkRat 1 10) "abc" l =
        Except.ok (mkRat 1 10, "neutral")
    ∧ analyze_sentiment (okModel fun _ => -mkRat 1 10) "abc" l =
        Except.ok (-mkRat 1 10, "neutral")
    ∧ analyze_sentiment (okModel fun _ => mkRat 1000001 10000000) "abc" l =
        Except.ok (mkRat 1000001 10000000, "positive") := by
  refine ⟨rfl, ?_, by rfl, by rfl, by rfl⟩
  intro h
  rw [analyze_sentiment] at h
  by_cases ht : t = ""
  · rw [if_pos ht] at h
    injection h with h1
    have hp : (0 : ℚ) = p := congrArg Prod.fst h1
    have hs : "neutral" = s := congrArg Prod.snd h1
    subst hp
    subst hs
    exact ⟨iff_of_false (by decide) (by decide), iff_of_false (by decide) (by decide),
      iff_of_true rfl ⟨by decide, by decide⟩⟩
  · rw [if_neg ht] at h
    cases hsm : sm t with
    | error e => rw [hsm] at h; exact Except.noConfusion h
    | ok q =>
      rw [hsm] at h
      injection h with h1
      have hp : q = p := congrArg Prod.fst h1
      have hs : thresholdLabel q = s := congrArg Prod.snd h1
      subst hp
      subst hs
      rw [thresholdLabel]
      by_cases hq1 : q > mkRat 1 10
      · rw [if_pos hq1]
        have hnn : ¬q < -mkRat 1 10 := by
          intro hc
          have hlt : (-mkRat 1 10 : ℚ) < mkRat 1 10 := by decide
          exact absurd (lt_trans hc hlt) (lt_asymm hq1)
        exact ⟨iff_of_true rfl hq1, iff_of_false (by decide) hnn,
          iff_of_false (by decide) fun hc => hc.1 hq1⟩
      · by_cases hq2 : q < -mkRat 1 10
        · rw [if_neg hq1, if_pos hq2]
          exact ⟨iff_of_false (by decide) hq1, iff_of_true rfl hq2,
            iff_of_false (by decide) fun hc => hc.2 hq2⟩
        · rw [if_neg hq1, if_neg hq2]
          exact ⟨iff_of_false (by decide) hq1, iff_of_false (by decide) hq2,
            iff_of_true rfl ⟨hq1, hq2⟩⟩

theorem C3_sentiment_thresholds_witness :
    analyze_sentiment (okModel fun _ => mkRat 1 2) "" "en" = Except.ok (0, "neutral")
    ∧ (("positive" = "positive" ↔ mkRat 1 10 < mkRat 1 2)
      ∧ ("positive" = "negative" ↔ mkRat 1 2 < -mkRat 1 10)
      ∧ ("positive" = "neutral" ↔ ¬mkRat 1 10 < mkRat 1 2 ∧ ¬mkRat 1 2 < -mkRat 1 10)) :=
  ⟨(C3_sentiment_thresholds (okModel fun _ => mkRat 1 2) "fine" "en" (mkRat 1 2)
      "positive").1,
   (C3_sentiment_thresholds (okModel fun _ => mkRat 1 2) "fine" "en" (mkRat 1 2)
      "positive").2.1 rfl⟩

/-- C4: language detection guards — content empty or shorter than 3
characters yields `"unknown"` without consulting the detector (the result
is detector-independent); a detector fault yields `"unknown"`; and
otherwise the detector is consulted only on the first 1000 characters
(agreement there forces agreement of the results). -/
theorem C4_detect_language_guards (det det2 : String → Except Unit String) (t : String) :
    ((t = "" ∨ t.length < 3) →
      detect_language det t = "unknown"
      ∧ detect_language det t = detect_language det2 t)
    ∧ (¬(t = "" ∨ t.length < 3) → det (t.take 1000) = Except.error () →
        detect_language det t = "unknown")
    ∧ (det (t.take 1000) = det2 (t.take 1000) →
        detect_language det t = detect_language det2 t) := by
  refine ⟨?_, ?_, ?_⟩
  · intro h
    have e1 : detect_language det t = "unknown" := by rw [detect_language, if_pos h]
    have e2 : detect_language det2 t = "unknown" := by rw [detect_language, if_pos h]
    exact ⟨e1, e1.trans e2.symm⟩
  · intro h he
    rw [detect_language, if_neg h, he]
  · intro he
    by_cases h : t = "" ∨ t.length < 3
    · rw [detect_language, if_pos h, detect_language, if_pos h]
    · rw [detect_language, if_neg h, detect_language, if_neg h, he]

theorem C4_detect_language_guards_witness :
    (detect_language (fun _ => Except.ok "en") "Hi" = "unknown"
      ∧ detect_language (fun _ => Except.ok "en") "Hi" =
          detect_language (fun _ => Except.error ()) "Hi")
    ∧ detect_language (fun _ => Except.error ()) "Bonjour" = "unknown" :=
  ⟨(C4_detect_language_guards (fun _ => Except.ok "en") (fun _ => Except.error ())
      "Hi").1 (Or.inr (by decide)),
   (C4_detect_language_guards (fun _ => Except.error ()) (fun _ => Except.ok "x")
      "Bonjour").2.1 (by decide) rfl⟩

def cexPre1 : PDoc :=
  { title := "t1", content := "angry text", author := "a1", date := none, url := "u1" }

def cexPre2 : PDoc :=
  { title := "t2", content := "calm text", author := "a2", date := none, url := "u2" }

/-- C7 counterexample: the claim says an error raised by the sentiment
model is caught per document, the sentiment defaults to neutral, and
processing continues with the next document.  With a sentiment model that
raises on every input, the Enricher instead aborts at the first of two
documents: the run ends incomplete (`false`), nothing is written, zero
documents are counted, and the second document is never attempted. -/
theorem C7_counterexample :
    NLPProcessor.process_documents enDet cexBadSm (fun _ => false) 0
      [cexPre1, cexPre2] [] 0 = ([], 0, false) := by decide

/-- C7 (amended): an error raised by the language model
(`LangDetectException`) is caught per document — the language field
defaults to `"unknown"` and processing continues with the next document —
but an error raised by the sentiment model is not caught: it aborts the
Enricher stage at that document (only empty content produces the neutral
default without consulting the model). -/
theorem C7_per_document_model_faults (det : String → Except Unit String)
    (sm : String → Except Unit ℚ) (failW : String → Bool) (now : Nat)
    (d : PDoc) (ds : List PDoc) (enr : List EDoc) (cnt : Nat) (p : ℚ) :
    (det (d.content.take 1000) = Except.error () → sm d.content = Except.ok p →
      ¬(d.content = "" ∨ d.content.length < 3) → failW d.url = false →
      NLPProcessor.process_documents det sm failW now (d :: ds) enr cnt =
        NLPProcessor.process_documents det sm failW now ds
          (upsertBy EDoc.url (enrichedDoc det now d p (thresholdLabel p)) enr) (cnt + 1)
      ∧ (enrichedDoc det now d p (thresholdLabel p)).language = "unknown")
    ∧ (d.content ≠ "" → sm d.content = Except.error () →
        NLPProcessor.process_documents det sm failW now (d :: ds) enr cnt =
          (enr, cnt, false)) := by
  constructor
  · intro h1 h2 h3 h4
    have hne : d.content ≠ "" := fun hc => h3 (Or.inl hc)
    have hdl : detect_language det d.content = "unknown" := by
      rw [detect_language, if_neg h3, h1]
    refine ⟨?_, by simp [enrichedDoc, hdl]⟩
    rw [NLPProcessor.process_documents]
    simp only [analyze_sentiment, if_neg hne, h2, h4, Bool.false_eq_true, if_false]
  · intro hne h2
    rw [NLPProcessor.process_documents]
    simp only [analyze_sentiment, if_neg hne, h2]

theorem C7_per_document_model_faults_witness :
    (NLPProcessor.process_documents (fun _ => Except.error ()) (okModel fun _ => 0)
        (fun _ => false) 3 [exP1] [] 0 =
      NLPProcessor.process_documents (fun _ => Except.error ()) (okModel fun _ => 0)
        (fun _ => false) 3 []
        (upsertBy EDoc.url
          (enrichedDoc (fun _ => Except.error ()) 3 exP1 0 (thresholdLabel 0)) []) 1
      ∧ (enrichedDoc (fun _ => Except.error ()) 3 exP1 0 (thresholdLabel 0)).language =
          "unknown")
    ∧ NLPProcessor.process_documents enDet cexBadSm (fun _ => false) 0 [cexPre1] [] 0 =
        ([], 0, false) :=
  ⟨(C7_per_document_model_faults (fun _ => Except.error ()) (okModel fun _ => 0)
      (fun _ => false) 3 exP1 [] [] 0 0).1 rfl rfl (by decide) rfl,
   (C7_per_document_model_faults enDet cexBadSm (fun _ => false) 0 cexPre1 [] [] 0 0).2
      (by decide) rfl⟩

/-- C8: the Publisher submits the projected documents in fixed batches of
500 — every batch is nonempty with at most 500 actions, every batch but
the last holds exactly 500, and their concatenation is the whole projected
collection in order — and the batch sequence is unchanged by bulk-call
failures: a failing batch (caught inside `_bulk_index`) never prevents a
later submission, and no batch is retried. -/
theorem C8_batching (bf bf2 : List ESDoc → Bool) (now : Nat) (docs : List MDoc) :
    ((index_documents bf now docs []).map Prod.fst).flatten =
        docs.map (transform_document now)
    ∧ (∀ b ∈ (index_documents bf now docs []).map Prod.fst, b ≠ [] ∧ b.length ≤ 500)
    ∧ (∀ b ∈ ((index_documents bf now docs []).map Prod.fst).dropLast, b.length = 500)
    ∧ (index_documents bf now docs []).map Prod.fst =
        (index_documents bf2 now docs []).map Prod.fst := by
  refine ⟨?_, (index_documents_batch_sizes bf now docs [] (by simp)).1,
    (index_documents_batch_sizes bf now docs [] (by simp)).2,
    index_documents_fault_oblivious bf bf2 now docs []⟩
  simpa using index_documents_flatten bf now docs []

theorem C8_batching_witness :
    ((index_documents (fun _ => true) 3 [exM] []).map Prod.fst).flatten =
        [exM].map (transform_document 3)
    ∧ ([transform_document 3 exM] ≠ [] ∧ [transform_document 3 exM].length ≤ 500) :=
  ⟨(C8_batching (fun _ => true) (fun _ => false) 3 [exM]).1,
   (C8_batching (fun _ => true) (fun _ => false) 3 [exM]).2.1
     [transform_document 3 exM] (by decide)⟩

theorem C10_transform_defaults_witness :
    ((transform_document 5 exM).titre = "" ∧ (transform_document 5 exM).contenu = ""
      ∧ (transform_document 5 exM).auteur = "unknown"
      ∧ (transform_document 5 exM).langue = "unknown"
      ∧ (transform_document 5 exM).sentiment = "neutral"
      ∧ (transform_document 5 exM).url = "" ∧ (transform_document 5 exM).score = 0
      ∧ (transform_document 5 exM).date = 5)
    ∧ (transform_document 5 exMFull).score = mkRat 37 100 := by
  have h := C10_transform_defaults 5 exM
  have h2 := (C10_transform_defaults 5 exMFull).2.2.2.2.2.2.2.2 (mkRat 37 100) rfl
  exact ⟨⟨h.1 rfl, h.2.1 rfl, h.2.2.1 rfl, h.2.2.2.1 rfl, h.2.2.2.2.1 rfl,
    h.2.2.2.2.2.1 rfl, h.2.2.2.2.2.2.1 rfl, h.2.2.2.2.2.2.2.1 rfl⟩, h2⟩

end Pipeline
